import Mathlib

/-
Shallow embedding of ks-yuzu/kustomize-graphing (src/cmd/main.go and
src/pkg/util/contain.go).

Modelling conventions:
  * Filesystem paths are represented as lists of path segments (`GoPath`);
    `showP` renders the slash-joined string form.  The Go code manipulates
    paths as strings through `path/filepath`; on cleaned relative paths the
    segment-list view is the faithful image of those operations
    (`filepath.Join` = append-then-clean, `filepath.Dir` = drop the last
    segment, `filepath.Base` = last segment, `strings.Split(s, "/")` =
    the segment list).
  * The external collaborators (kustomize's file reader/parser,
    `filesys.FileSystem.Exists/IsDir`, and `filepath.Rel(*topDir, ·)`) are
    parameters collected in an `Env` record, exactly the capabilities
    main.go consumes.
  * The process-global mutable state (`rootDir`, `edges`) together with the
    zap log output is made explicit as a state record `St` threaded through
    the traversal.  `St.visited` is ghost instrumentation recording, in
    order, every directory `readDir` is invoked on; no source behaviour
    depends on it.
  * The unbounded Go recursion of `readDir` is embedded with a fuel
    parameter: `readDir env fuel` is the body `readDirF` iterated `fuel`
    times, `none` meaning the recursion was not exhausted within `fuel`
    nesting levels.
-/

set_option autoImplicit false

deriving instance DecidableEq for Except

namespace KG

/-- A filesystem path as its list of `/`-separated segments. -/
abbrev GoPath := List String

/-- Model of `strings.Split(s, "/")`, splitting a string at every slash. -/
def splitSlashAux : List Char → List Char → List String
  | [], acc => [String.mk acc.reverse]
  | c :: cs, acc =>
    if c = '/' then String.mk acc.reverse :: splitSlashAux cs []
    else splitSlashAux cs (c :: acc)

/-- Model of `strings.Split(s, "/")` on a whole string. -/
def splitSlash (s : String) : List String := splitSlashAux s.data []

/-- One step of `path.Clean` on a relative path, processed segmentwise:
empty and `.` segments are dropped, `..` pops the previous segment unless
none is poppable. -/
def cleanStep (acc : List String) (seg : String) : List String :=
  if seg = "" ∨ seg = "." then acc
  else if seg = ".." then
    match acc.getLast? with
    | some l => if l = ".." then acc ++ [".."] else acc.dropLast
    | none => [".."]
  else acc ++ [seg]

/-- Model of `path.Clean` on a relative path given as segments; an empty
result becomes `.` exactly as in Go. -/
def cleanSegs (segs : List String) : List String :=
  let r := segs.foldl cleanStep []
  if r = [] then ["."] else r

/-- Model of `filepath.Join(dir, v)`: concatenate and clean. -/
def goJoin (dir : GoPath) (v : String) : GoPath :=
  cleanSegs (dir ++ splitSlash v)

/-- The slash-joined string form of a path, as Go stores it. -/
def showP : GoPath → String
  | [] => ""
  | [s] => s
  | s :: rest => s ++ "/" ++ showP rest

/-- Model of `filepath.Join` on the string forms (used by the renderer). -/
def goJoinStr (a b : String) : String :=
  showP (cleanSegs (splitSlash a ++ splitSlash b))

/-- Model of `strings.Split(filepath.Dir(strings.Trim(dir, "/")), "/")` in
`appendToDirTree`, on a cleaned relative path: all but the last segment,
or the sentinel `.` when there is at most one segment. -/
def parentSegs (p : GoPath) : List String :=
  if p.length ≤ 1 then ["."] else p.dropLast

/-- Model of `filepath.Base` on a cleaned relative path: the last segment
(`.` for the empty path, as in Go). -/
def baseSeg (p : GoPath) : String := (p.getLast?).getD "."

/-- The `Edge` struct of main.go: a directed reference between two overlay
identifiers (relative-path strings). -/
structure Edge where
  Src : String
  Dst : String
deriving DecidableEq

/-- Severity of an emitted log line (`zap.S().Debugf` vs `Warnf`).  At
default verbosity (production logger) debug lines are suppressed and
warnings are shown. -/
inductive LogLevel where
  | debug
  | warn
deriving DecidableEq

/-- One emitted log line. -/
structure Diag where
  level : LogLevel
  msg : String
deriving DecidableEq

/-- A patch-like entry carrying a `Path` field (`types.Patch`,
`types.ReplacementField`): only the `Path` field is consumed by main.go. -/
structure Patch where
  Path : String
deriving DecidableEq

/-- The slice fields of `types.Kustomization` consumed by `readDir`. -/
structure Kustomization where
  Resources : List String := []
  Components : List String := []
  Patches : List Patch := []
  Replacements : List Patch := []
  Transformers : List String := []
  Configurations : List String := []
deriving DecidableEq

mutual
/-- The `DirNode` struct: overlay basenames at this level plus the child
map.  The Go `map[string]*DirNode` is modelled as an association list
(`ChildMap`) in insertion order; no claim depends on map iteration order. -/
inductive DirNode where
  | node : List String → ChildMap → DirNode

/-- Association-list model of `map[string]*DirNode`. -/
inductive ChildMap where
  | nil : ChildMap
  | cons : String → DirNode → ChildMap → ChildMap
end

/-- The `Kustomizations` field of a `DirNode`. -/
def DirNode.Kustomizations : DirNode → List String
  | .node ks _ => ks

/-- The `Children` field of a `DirNode`. -/
def DirNode.Children : DirNode → ChildMap
  | .node _ cs => cs

/-- A fresh `&DirNode{Children: map[string]*DirNode{}}`. -/
def emptyNode : DirNode := .node [] .nil

/-- Map read `d.Children[k]`. -/
def lookupChild : ChildMap → String → Option DirNode
  | .nil, _ => none
  | .cons k v rest, s => if k = s then some v else lookupChild rest s

/-- Map write `d.Children[k] = v` (replace if present, append if absent). -/
def setChild : ChildMap → String → DirNode → ChildMap
  | .nil, s, v => .cons s v .nil
  | .cons k c rest, s, v =>
    if k = s then .cons k v rest else .cons k c (setChild rest s v)

/-- The process-wide mutable state of main.go (`rootDir`, `edges`) plus the
log output and the ghost visit trace. -/
structure St where
  rootDir : DirNode
  edges : List Edge
  diags : List Diag
  visited : List GoPath

/-- The state at process start: `rootDir` empty, `edges` empty. -/
def initSt : St := ⟨emptyNode, [], [], []⟩

/-- Emit one log line. -/
def St.log (st : St) (lvl : LogLevel) (msg : String) : St :=
  { st with diags := st.diags ++ [⟨lvl, msg⟩] }

/-- The external capabilities consumed by `readDir`: `fs.Exists`,
`fs.IsDir`, `readKustomizationFile` (file read + YAML unmarshal +
`FixKustomization`), and `filepath.Rel(*topDir, ·)`. -/
structure Env where
  fsExists : GoPath → Bool
  fsIsDir : GoPath → Bool
  readKustomization : GoPath → Except String Kustomization
  relTop : GoPath → Except String GoPath

/-- `util.Contains` from src/pkg/util/contain.go, instantiated at `Edge`:
a linear scan with structural (`reflect.DeepEqual`) equality. -/
def Contains : List Edge → Edge → Bool
  | [], _ => false
  | x :: rest, e => if x = e then true else Contains rest e

/-- The inline dedup in `readDir`:
`if !util.Contains(edges, newEdge) { edges = append(edges, newEdge) }`. -/
def addIfAbsent (l : List Edge) (e : Edge) : List Edge :=
  if Contains l e then l else l ++ [e]

/-- The `kustomization.Resources` loop of `readDir`: per entry a debug
trace, a debug-level `not found` line when absent, and a traversal child
exactly when the joined path is an existing directory. -/
def scanResources (env : Env) (dir : GoPath) : St → List String → St × List GoPath
  | st, [] => (st, [])
  | st, v :: vs =>
    let st := St.log st .debug ("- (resource) " ++ v)
    let nextPath := goJoin dir v
    if env.fsExists nextPath = false then
      scanResources env dir
        (St.log st .debug ("/* " ++ showP nextPath ++ " is not found */")) vs
    else if env.fsIsDir nextPath = true then
      let r := scanResources env dir st vs
      (r.1, nextPath :: r.2)
    else
      scanResources env dir st vs

/-- The `kustomization.Components` loop of `readDir`: like the resources
loop but the `not found` line is warning-level. -/
def scanComponents (env : Env) (dir : GoPath) : St → List String → St × List GoPath
  | st, [] => (st, [])
  | st, v :: vs =>
    let st := St.log st .debug ("- (component) " ++ v)
    let nextPath := goJoin dir v
    if env.fsExists nextPath = false then
      scanComponents env dir
        (St.log st .warn (showP nextPath ++ " is not found")) vs
    else if env.fsIsDir nextPath = true then
      let r := scanComponents env dir st vs
      (r.1, nextPath :: r.2)
    else
      scanComponents env dir st vs

/-- The patches/replacements/transformers/configurations loops of
`readDir`: existence check and diagnostics only. -/
def checkPaths (env : Env) (tag : String) (dir : GoPath) : St → List String → St
  | st, [] => st
  | st, v :: vs =>
    let st := St.log st .debug ("- (" ++ tag ++ ") " ++ v)
    let nextPath := goJoin dir v
    let st :=
      if env.fsExists nextPath = false then
        St.log st .warn (showP nextPath ++ " is not found")
      else st
    checkPaths env tag dir st vs

/-- The edge-recording loop of `readDir`: per child compute its identifier
via `filepath.Rel` (failure aborts `readDir` with that error), log the edge
and append it unless an identical pair is already present. -/
def addEdges (env : Env) (rel : GoPath) : St → List GoPath → St × Option String
  | st, [] => (st, none)
  | st, nd :: nds =>
    match env.relTop nd with
    | .error e => (st, some e)
    | .ok ndRel =>
      let st := St.log st .debug
        ("[edge] \"" ++ showP rel ++ "\" -> \"" ++ showP ndRel ++ "\"")
      let st := { st with edges := addIfAbsent st.edges (Edge.mk (showP rel) (showP ndRel)) }
      addEdges env rel st nds

/-- The node-registration walk of `appendToDirTree`: descend the child map
along the parent segments, creating missing nodes, and at the terminal node
append the basename unless already present (`slices.Contains`). -/
def descend (t : DirNode) : List String → String → DirNode
  | [], b =>
    .node (if t.Kustomizations.contains b then t.Kustomizations
           else t.Kustomizations ++ [b]) t.Children
  | s :: rest, b =>
    let c := (lookupChild t.Children s).getD emptyNode
    .node t.Kustomizations (setChild t.Children s (descend c rest b))

/-- `appendToDirTree` from main.go (its error return is constantly `nil`,
so the model returns the updated tree directly). -/
def appendToDirTree (t : DirNode) (dir : GoPath) : DirNode :=
  descend t (parentSegs dir) (baseSeg dir)

/-- Pure descent of the tree along a segment list (`none` when a segment is
missing); used to state properties of `appendToDirTree`. -/
def descendPath (t : DirNode) : List String → Option DirNode
  | [] => some t
  | s :: rest =>
    match lookupChild t.Children s with
    | none => none
    | some c => descendPath c rest

/-- Boolean duplicate-freedom of a string list under the program's own
membership test (`slices.Contains`). -/
def listNodupStr : List String → Bool
  | [] => true
  | x :: xs => !(xs.contains x) && listNodupStr xs

mutual
/-- Every overlay list in the tree is duplicate-free. -/
def nodupB : DirNode → Bool
  | .node ks cs => listNodupStr ks && nodupBChildren cs

/-- Every overlay list in every tree of the child map is duplicate-free. -/
def nodupBChildren : ChildMap → Bool
  | .nil => true
  | .cons _ c rest => nodupB c && nodupBChildren rest
end

/-- The recursion loop at the end of `readDir`:
`for _, nextDir := range nextDirs { readDir(fs, nextDir) }` — note the
recursive call's error is discarded, only its state mutations remain. -/
def recurseList (next : GoPath → St → Option (St × Option String)) :
    List GoPath → St → Option St
  | [], st => some st
  | nd :: nds, st =>
    match next nd st with
    | none => none
    | some (st, _) => recurseList next nds st

/-- The body of `readDir` from main.go with the recursive call abstracted
as `next`; the statement order matches the source exactly. -/
def readDirF (env : Env) (next : GoPath → St → Option (St × Option String))
    (dir : GoPath) (st : St) : Option (St × Option String) :=
  let st := { st with visited := st.visited ++ [dir] }
  let st := St.log st .debug ("----- " ++ showP dir ++ " -----")
  match env.readKustomization dir with
  | .error e => some (st, some e)
  | .ok k =>
    match env.relTop dir with
    | .error e => some (st, some e)
    | .ok rel =>
      let st := { st with rootDir := appendToDirTree st.rootDir rel }
      let p1 := scanResources env dir st k.Resources
      let p2 := scanComponents env dir p1.1 k.Components
      let nextDirs := p1.2 ++ p2.2
      let st := checkPaths env "patch" dir p2.1 (k.Patches.map Patch.Path)
      let st := checkPaths env "replacement" dir st (k.Replacements.map Patch.Path)
      let st := checkPaths env "transformer" dir st k.Transformers
      let st := checkPaths env "configuration" dir st k.Configurations
      match addEdges env rel st nextDirs with
      | (st, some e) => some (st, some e)
      | (st, none) =>
        match recurseList next nextDirs st with
        | none => none
        | some st => some (st, none)

/-- `readDir` with a recursion-depth fuel: `none` means the traversal did
not finish within `fuel` nesting levels (the Go original simply recurses
without bound). -/
def readDir (env : Env) : Nat → GoPath → St → Option (St × Option String)
  | 0 => fun _ _ => none
  | fuel + 1 => readDirF env (readDir env fuel)

/-- The loop in `main`: run `readDir` on each discovered overlay root; a
returned error is printed and the process exits 1 (modelled as the error
in the result), otherwise continue with the next root. -/
def runRoots (env : Env) (fuel : Nat) : List GoPath → St → Option (St × Option String)
  | [], st => some (st, none)
  | d :: ds, st =>
    match readDir env fuel d st with
    | none => none
    | some (st, some e) => some (st, some e)
    | some (st, none) => runRoots env fuel ds st

/-- `strings.Repeat(s, n)`. -/
def repeatStr (s : String) (n : Nat) : String := String.join (List.replicate n s)

/-- The `regexp.MustCompile("[\\-\\.()]").ReplaceAllString(name, "_")`
sanitisation of cluster names. -/
def sanitize (s : String) : String :=
  String.mk (s.data.map (fun c =>
    if c = '-' ∨ c = '.' ∨ c = '(' ∨ c = ')' then '_' else c))

mutual
/-- `printGraphNodes` from main.go, producing the emitted lines: one node
line per overlay at this level, then one cluster block per child. -/
def printGraphNodes : DirNode → String → Nat → List String
  | .node ks cs, dirName, indentLevel =>
    (ks.map (fun k =>
      repeatStr " " (2 * indentLevel) ++ "\"" ++ goJoinStr dirName k
        ++ "\"  [label=\"" ++ k ++ "\"]"))
    ++ printChildren cs dirName indentLevel

/-- The child-cluster loop of `printGraphNodes`: the sentinel segment `.`
is displayed as `(root)`, the cluster id is sanitised, and the child is
rendered one indent level deeper under the joined path. -/
def printChildren : ChildMap → String → Nat → List String
  | .nil, _, _ => []
  | .cons childName0 childNode rest, dirName, indentLevel =>
    let indent := repeatStr " " (2 * indentLevel)
    let nextIndent := repeatStr " " (2 * (indentLevel + 1))
    let childName := if childName0 = "." then "(root)" else childName0
    ([""]
      ++ [indent ++ "subgraph cluster_" ++ sanitize childName ++ " \x7b"]
      ++ [nextIndent ++ "label = \"" ++ childName ++ "\""]
      ++ [nextIndent ++ "fillcolor=lightgray;"]
      ++ [nextIndent ++ "style=filled;"]
      ++ [nextIndent ++ "color=white;"]
      ++ [nextIndent ++ "penwidth=3;"]
      ++ [nextIndent ++ "node [style=filled,color=white];"]
      ++ printGraphNodes childNode (goJoinStr dirName childName) (indentLevel + 1)
      ++ [indent ++ "\x7d"])
    ++ printChildren rest dirName indentLevel
end

/-- `printGraphEdges` from main.go: one line per collected edge, in
collection order. -/
def printGraphEdges (edges : List Edge) (indentLevel : Nat) : List String :=
  edges.map (fun e =>
    repeatStr " " (2 * indentLevel) ++ "\"" ++ e.Src ++ "\" -> \"" ++ e.Dst ++ "\"")

/-- The output of `main` after traversal: opening marker, node section,
edge section, closing marker. -/
def mainLines (st : St) : List String :=
  ["digraph G \x7b"] ++ printGraphNodes st.rootDir "" 1
    ++ printGraphEdges st.edges 1 ++ ["\x7d"]

/-- The traversal children contributed by one reference list: the joined
paths that exist and are directories, in list order. -/
def dirRefs (env : Env) (dir : GoPath) (vs : List String) : List GoPath :=
  vs.filterMap (fun v =>
    let p := goJoin dir v
    if env.fsExists p && env.fsIsDir p then some p else none)

/-- All traversal children of one overlay: resources then components. -/
def nextDirsOf (env : Env) (dir : GoPath) (k : Kustomization) : List GoPath :=
  dirRefs env dir k.Resources ++ dirRefs env dir k.Components

/-- Boolean duplicate-freedom of an edge list under the program's own
membership test. -/
def nodupEdgesB : List Edge → Bool
  | [] => true
  | e :: rest => !(Contains rest e) && nodupEdgesB rest

/-- Duplicate-freedom of the edge collection in a traversal outcome
(vacuously true when the fuel ran out). -/
def edgesNodupAfterB : Option (St × Option String) → Bool
  | none => true
  | some (st, _) => nodupEdgesB st.edges

/-- A kustomization with the four check-only lists emptied. -/
def stripK (k : Kustomization) : Kustomization :=
  { k with Patches := [], Replacements := [], Transformers := [], Configurations := [] }

/-- The same environment with every overlay's check-only lists emptied. -/
def stripEnv (env : Env) : Env :=
  { env with readKustomization := fun d => (env.readKustomization d).map stripK }

/-- The log-free observables of a traversal outcome: directory tree, edge
collection, visit trace, and the returned error. -/
def obsO : Option (St × Option String) → Option (DirNode × List Edge × List GoPath × Option String)
  | none => none
  | some (st, e) => some (st.rootDir, st.edges, st.visited, e)

/-- Two states agreeing on everything except the log output. -/
def stSim (s t : St) : Prop :=
  s.rootDir = t.rootDir ∧ s.edges = t.edges ∧ s.visited = t.visited

/-- Two `readDir` outcomes agreeing on everything except the log output. -/
def relO : Option (St × Option String) → Option (St × Option String) → Prop
  | none, none => True
  | some (t, r), some (t', r') => stSim t t' ∧ r = r'
  | _, _ => False

/-- Two `recurseList` outcomes agreeing on everything except the log
output. -/
def relSt : Option St → Option St → Prop
  | none, none => True
  | some t, some t' => stSim t t'
  | _, _ => False

/-- The edge collection after the edge-recording loop of `readDir`, as a
pure function of the incoming collection. -/
def edgesAfter (env : Env) (rel : GoPath) : List Edge → List GoPath → List Edge
  | es, [] => es
  | es, nd :: nds =>
    match env.relTop nd with
    | .error _ => es
    | .ok ndRel =>
      edgesAfter env rel (addIfAbsent es (Edge.mk (showP rel) (showP ndRel))) nds

/-- The error, if any, returned by the edge-recording loop of `readDir`. -/
def errAfter (env : Env) : List GoPath → Option String
  | [] => none
  | nd :: nds =>
    match env.relTop nd with
    | .error e => some e
    | .ok _ => errAfter env nds

/-- The log lines emitted by the resources loop. -/
def diagsRes (env : Env) (dir : GoPath) : List String → List Diag
  | [] => []
  | v :: vs =>
    ⟨.debug, "- (resource) " ++ v⟩ ::
      ((if env.fsExists (goJoin dir v) = false
        then [⟨.debug, "/* " ++ showP (goJoin dir v) ++ " is not found */"⟩]
        else [])
      ++ diagsRes env dir vs)

/-- The log lines emitted by the components loop. -/
def diagsComp (env : Env) (dir : GoPath) : List String → List Diag
  | [] => []
  | v :: vs =>
    ⟨.debug, "- (component) " ++ v⟩ ::
      ((if env.fsExists (goJoin dir v) = false
        then [⟨.warn, showP (goJoin dir v) ++ " is not found"⟩]
        else [])
      ++ diagsComp env dir vs)

/-- The log lines emitted by one of the check-only loops. -/
def diagsCheck (env : Env) (tag : String) (dir : GoPath) : List String → List Diag
  | [] => []
  | v :: vs =>
    ⟨.debug, "- (" ++ tag ++ ") " ++ v⟩ ::
      ((if env.fsExists (goJoin dir v) = false
        then [⟨.warn, showP (goJoin dir v) ++ " is not found"⟩]
        else [])
      ++ diagsCheck env tag dir vs)

/-- The log lines emitted by the edge-recording loop. -/
def diagsEdges (env : Env) (rel : GoPath) : List GoPath → List Diag
  | [] => []
  | nd :: nds =>
    match env.relTop nd with
    | .error _ => []
    | .ok ndRel =>
      ⟨.debug, "[edge] \"" ++ showP rel ++ "\" -> \"" ++ showP ndRel ++ "\""⟩
        :: diagsEdges env rel nds

/-- The state after the entry trace of `readDir` (visit recorded, banner
logged). -/
def stTrace (d : GoPath) (st : St) : St :=
  { st with
    diags := st.diags ++ [⟨.debug, "----- " ++ showP d ++ " -----"⟩]
    visited := st.visited ++ [d] }

/-- The state after the whole non-recursive part of `readDir` on an overlay
whose configuration was read as `k` and whose identifier is `rel`. -/
def stProcessed (env : Env) (d rel : GoPath) (k : Kustomization) (st : St) : St :=
  { st with
    rootDir := appendToDirTree st.rootDir rel
    edges := edgesAfter env rel st.edges (nextDirsOf env d k)
    diags := st.diags ++
      ([⟨.debug, "----- " ++ showP d ++ " -----"⟩]
        ++ diagsRes env d k.Resources
        ++ diagsComp env d k.Components
        ++ diagsCheck env "patch" d (k.Patches.map Patch.Path)
        ++ diagsCheck env "replacement" d (k.Replacements.map Patch.Path)
        ++ diagsCheck env "transformer" d k.Transformers
        ++ diagsCheck env "configuration" d k.Configurations
        ++ diagsEdges env rel (nextDirsOf env d k))
    visited := st.visited ++ [d] }

/-- Explicit characterisation of one `readDir` body step (proved equal to
`readDirF` below): the four outcomes are configuration-read failure,
relative-path failure on the overlay itself, relative-path failure on a
child inside the edge loop, and the recursive continuation. -/
def readDirShape (env : Env) (next : GoPath → St → Option (St × Option String))
    (d : GoPath) (st : St) : Option (St × Option String) :=
  match env.readKustomization d with
  | .error e => some (stTrace d st, some e)
  | .ok k =>
    match env.relTop d with
    | .error e => some (stTrace d st, some e)
    | .ok rel =>
      match errAfter env (nextDirsOf env d k) with
      | some e => some (stProcessed env d rel k st, some e)
      | none =>
        match recurseList next (nextDirsOf env d k) (stProcessed env d rel k st) with
        | none => none
        | some st2 => some (st2, none)

/-- A concrete two-overlay filesystem: overlay `a` lists directory `b`
twice as a resource; `a/b` has no readable configuration. -/
def envDup : Env where
  fsExists := fun p => p == ["a", "b"] || p == ["a"]
  fsIsDir := fun p => p == ["a", "b"] || p == ["a"]
  readKustomization := fun d =>
    if d == ["a"] then .ok { Resources := ["b", "b"] }
    else .error "cannot read kustomization.yaml"
  relTop := fun p => .ok p

/-- A concrete filesystem where overlay `a` references the existing
directory `b`, but `a/b` has no readable configuration. -/
def envChildErr : Env where
  fsExists := fun p => p == ["a", "b"] || p == ["a"]
  fsIsDir := fun p => p == ["a", "b"] || p == ["a"]
  readKustomization := fun d =>
    if d == ["a"] then .ok { Resources := ["b"] }
    else .error "cannot read kustomization.yaml"
  relTop := fun p => .ok p

/-- A concrete filesystem where overlay `a` declares resource `missing`
and nothing else; the resource path does not exist. -/
def envMissing : Env where
  fsExists := fun p => p == ["a"]
  fsIsDir := fun p => p == ["a"]
  readKustomization := fun d =>
    if d == ["a"] then .ok { Resources := ["missing"] }
    else .error "cannot read kustomization.yaml"
  relTop := fun p => .ok p

/-- A rank function witnessing that `envChildErr`'s reference relation is
acyclic: the root has rank 1, everything else rank 0. -/
def rankChild (p : GoPath) : Nat := if p = ["a"] then 1 else 0

theorem Contains_iff (l : List Edge) (e : Edge) : Contains l e = true ↔ e ∈ l := by
  induction l with
  | nil => simp [Contains]
  | cons x rest ih =>
    simp only [Contains]
    by_cases h : x = e
    · subst h; simp
    · rw [if_neg h, ih, List.mem_cons]
      constructor
      · exact Or.inr
      · rintro (rfl | hm)
        · exact absurd rfl h
        · exact hm

theorem Contains_eq_false {l : List Edge} {e : Edge} :
    Contains l e = false ↔ e ∉ l := by
  constructor
  · intro h hm
    rw [(Contains_iff l e).mpr hm] at h
    cases h
  · intro hm
    cases hx : Contains l e
    · rfl
    · exact absurd ((Contains_iff l e).mp hx) hm

theorem nodupEdgesB_iff (l : List Edge) : nodupEdgesB l = true ↔ l.Nodup := by
  induction l with
  | nil => simp [nodupEdgesB]
  | cons e rest ih =>
    simp [nodupEdgesB, List.nodup_cons, ih, Contains_eq_false]

theorem addIfAbsent_of_mem {l : List Edge} {e : Edge} (h : e ∈ l) :
    addIfAbsent l e = l := by
  simp [addIfAbsent, (Contains_iff l e).mpr h]

theorem addIfAbsent_nodup {l : List Edge} (e : Edge) (h : l.Nodup) :
    (addIfAbsent l e).Nodup := by
  by_cases hc : Contains l e = true
  · simpa [addIfAbsent, hc] using h
  · have hm : e ∉ l := fun hmem => hc ((Contains_iff l e).mpr hmem)
    simp [addIfAbsent, hc, List.nodup_append, h, hm]

theorem mem_addIfAbsent {l : List Edge} {e a : Edge} :
    a ∈ addIfAbsent l e ↔ a ∈ l ∨ a = e := by
  by_cases hc : Contains l e = true
  · have he := (Contains_iff l e).mp hc
    simp only [addIfAbsent, hc, if_true]
    constructor
    · exact Or.inl
    · rintro (hm | rfl)
      · exact hm
      · exact he
  · simp [addIfAbsent, hc, List.mem_append]

theorem scanResources_eq (env : Env) (dir : GoPath) :
    ∀ (vs : List String) (st : St),
      scanResources env dir st vs
        = ({ st with diags := st.diags ++ diagsRes env dir vs }, dirRefs env dir vs) := by
  intro vs
  induction vs with
  | nil => intro st; simp [scanResources, diagsRes, dirRefs]
  | cons v vs ih =>
    intro st
    cases hE : env.fsExists (goJoin dir v) with
    | false =>
      simp only [scanResources, hE]
      rw [if_pos trivial, ih]
      simp [St.log, diagsRes, dirRefs, List.filterMap_cons, hE, List.append_assoc]
    | true =>
      cases hD2 : env.fsIsDir (goJoin dir v) with
      | true =>
        simp only [scanResources, hE, hD2]
        rw [if_neg (by simp), if_pos trivial, ih]
        simp [St.log, diagsRes, dirRefs, List.filterMap_cons, hE, hD2, List.append_assoc]
      | false =>
        simp only [scanResources, hE, hD2]
        rw [if_neg (by simp), if_neg (by simp), ih]
        simp [St.log, diagsRes, dirRefs, List.filterMap_cons, hE, hD2, List.append_assoc]

theorem scanComponents_eq (env : Env) (dir : GoPath) :
    ∀ (vs : List String) (st : St),
      scanComponents env dir st vs
        = ({ st with diags := st.diags ++ diagsComp env dir vs }, dirRefs env dir vs) := by
  intro vs
  induction vs with
  | nil => intro st; simp [scanComponents, diagsComp, dirRefs]
  | cons v vs ih =>
    intro st
    cases hE : env.fsExists (goJoin dir v) with
    | false =>
      simp only [scanComponents, hE]
      rw [if_pos trivial, ih]
      simp [St.log, diagsComp, dirRefs, List.filterMap_cons, hE, List.append_assoc]
    | true =>
      cases hD2 : env.fsIsDir (goJoin dir v) with
      | true =>
        simp only [scanComponents, hE, hD2]
        rw [if_neg (by simp), if_pos trivial, ih]
        simp [St.log, diagsComp, dirRefs, List.filterMap_cons, hE, hD2, List.append_assoc]
      | false =>
        simp only [scanComponents, hE, hD2]
        rw [if_neg (by simp), if_neg (by simp), ih]
        simp [St.log, diagsComp, dirRefs, List.filterMap_cons, hE, hD2, List.append_assoc]

theorem checkPaths_eq (env : Env) (tag : String) (dir : GoPath) :
    ∀ (vs : List String) (st : St),
      checkPaths env tag dir st vs
        = { st with diags := st.diags ++ diagsCheck env tag dir vs } := by
  intro vs
  induction vs with
  | nil => intro st; simp [checkPaths, diagsCheck]
  | cons v vs ih =>
    intro st
    cases hE : env.fsExists (goJoin dir v) with
    | false =>
      simp only [checkPaths, hE]
      rw [if_pos trivial, ih]
      simp [St.log, diagsCheck, hE, List.append_assoc]
    | true =>
      simp only [checkPaths, hE]
      rw [if_neg (by simp), ih]
      simp [St.log, diagsCheck, hE, List.append_assoc]

theorem addEdges_eq (env : Env) (rel : GoPath) :
    ∀ (nds : List GoPath) (st : St),
      addEdges env rel st nds
        = ({ st with
              diags := st.diags ++ diagsEdges env rel nds
              edges := edgesAfter env rel st.edges nds },
           errAfter env nds) := by
  intro nds
  induction nds with
  | nil => intro st; simp [addEdges, diagsEdges, edgesAfter, errAfter]
  | cons nd nds ih =>
    intro st
    cases hR : env.relTop nd with
    | error e => simp [addEdges, diagsEdges, edgesAfter, errAfter, hR]
    | ok ndRel =>
      simp only [addEdges, hR, St.log]
      rw [ih]
      simp [diagsEdges, edgesAfter, errAfter, hR, List.append_assoc]

theorem readDirF_eq (env : Env)
    (next : GoPath → St → Option (St × Option String)) (d : GoPath) (st : St) :
    readDirF env next d st = readDirShape env next d st := by
  cases hK : env.readKustomization d with
  | error e => simp [readDirF, readDirShape, hK, St.log, stTrace]
  | ok k =>
    cases hRel : env.relTop d with
    | error e => simp [readDirF, readDirShape, hK, hRel, St.log, stTrace]
    | ok rel =>
      simp only [readDirF, readDirShape, hK, hRel, St.log,
        scanResources_eq, scanComponents_eq, checkPaths_eq, addEdges_eq]
      cases hE : errAfter env (nextDirsOf env d k) with
      | some e =>
        simp [nextDirsOf, stProcessed, List.append_assoc] at hE ⊢
        simp [hE, List.append_assoc]
      | none =>
        simp [nextDirsOf, stProcessed, List.append_assoc] at hE ⊢
        simp [hE, List.append_assoc]

theorem edgesAfter_nodup (env : Env) (rel : GoPath) :
    ∀ (nds : List GoPath) (es : List Edge),
      es.Nodup → (edgesAfter env rel es nds).Nodup := by
  intro nds
  induction nds with
  | nil => intro es h; exact h
  | cons nd nds ih =>
    intro es h
    cases hR : env.relTop nd with
    | error e => simpa [edgesAfter, hR] using h
    | ok q => simpa [edgesAfter, hR] using ih _ (addIfAbsent_nodup _ h)

theorem readDir_edges_nodup (env : Env) :
    ∀ (fuel : Nat) (d : GoPath) (st : St) (p : St × Option String),
      readDir env fuel d st = some p → st.edges.Nodup → p.1.edges.Nodup := by
  intro fuel
  induction fuel with
  | zero => intro d st p h; simp [readDir] at h
  | succ fuel ih =>
    have hrl : ∀ (nds : List GoPath) (st0 st1 : St),
        recurseList (readDir env fuel) nds st0 = some st1 →
        st0.edges.Nodup → st1.edges.Nodup := by
      intro nds
      induction nds with
      | nil =>
        intro st0 st1 h0 hn0
        injection h0 with h1
        subst h1
        exact hn0
      | cons nd nds ihr =>
        intro st0 st1 h0 hn0
        simp only [recurseList] at h0
        split at h0
        · cases h0
        · next st2 r2 heq =>
          exact ihr _ _ h0 (ih nd st0 (st2, r2) heq hn0)
    intro d st p h hn
    rw [show readDir env (fuel + 1) = readDirF env (readDir env fuel) from rfl,
      readDirF_eq] at h
    unfold readDirShape at h
    split at h
    · injection h with h1
      subst h1
      simpa [stTrace] using hn
    · split at h
      · injection h with h1
        subst h1
        simpa [stTrace] using hn
      · split at h
        · injection h with h1
          subst h1
          simpa [stProcessed] using edgesAfter_nodup env _ _ _ hn
        · split at h
          · cases h
          · next st2 heq =>
            injection h with h1
            subst h1
            exact hrl _ _ _ heq (by simpa [stProcessed] using edgesAfter_nodup env _ _ _ hn)

theorem runRoots_edges_nodup (env : Env) (fuel : Nat) :
    ∀ (roots : List GoPath) (st : St) (p : St × Option String),
      runRoots env fuel roots st = some p → st.edges.Nodup → p.1.edges.Nodup := by
  intro roots
  induction roots with
  | nil =>
    intro st p h hn
    injection h with h1
    subst h1
    exact hn
  | cons d ds ih =>
    intro st p h hn
    simp only [runRoots] at h
    split at h
    · cases h
    · next st1 e heq =>
      injection h with h1
      subst h1
      exact readDir_edges_nodup env fuel d st (st1, some e) heq hn
    · next st1 heq =>
      exact ih _ _ h (readDir_edges_nodup env fuel d st (st1, none) heq hn)

/-- C1: the global edge collection never contains two edges with identical
(source, destination) pairs: any run of the traversal from a
duplicate-free collection (in particular the empty initial one) leaves the
collection duplicate-free, whatever configurations, re-listed references
or repeated parents occur; appending an edge whose pair is already present
leaves the collection unchanged; reversed pairs are distinct and both may
coexist. -/
theorem c1_edge_dedup :
    (∀ (env : Env) (fuel : Nat) (roots : List GoPath) (st : St),
        nodupEdgesB st.edges = true →
        edgesNodupAfterB (runRoots env fuel roots st) = true)
    ∧ (∀ (l : List Edge) (e : Edge), Contains l e = true → addIfAbsent l e = l)
    ∧ (∀ (s t : String), s ≠ t →
        addIfAbsent [Edge.mk s t] (Edge.mk t s) = [Edge.mk s t, Edge.mk t s]) := by
  refine ⟨?_, ?_, ?_⟩
  · intro env fuel roots st hn
    cases hro : runRoots env fuel roots st with
    | none => rfl
    | some p =>
      have := runRoots_edges_nodup env fuel roots st p hro
        ((nodupEdgesB_iff st.edges).mp hn)
      simpa [edgesNodupAfterB] using (nodupEdgesB_iff p.1.edges).mpr this
  · intro l e h
    simp [addIfAbsent, h]
  · intro s t h
    have hne : Edge.mk s t ≠ Edge.mk t s := by
      simp [Edge.mk.injEq]
      intro hst
      exact absurd hst h
    simp [addIfAbsent, Contains, hne]

/-- Witness for C1 on the concrete filesystem `envDup`, whose root overlay
lists the same directory twice. -/
theorem c1_edge_dedup_witness :
    (nodupEdgesB initSt.edges = true
      ∧ edgesNodupAfterB (runRoots envDup 3 [["a"]] initSt) = true)
    ∧ (Contains [Edge.mk "a" "b"] (Edge.mk "a" "b") = true
      ∧ addIfAbsent [Edge.mk "a" "b"] (Edge.mk "a" "b") = [Edge.mk "a" "b"])
    ∧ (("a" : String) ≠ "b"
      ∧ addIfAbsent [Edge.mk "a" "b"] (Edge.mk "b" "a")
          = [Edge.mk "a" "b", Edge.mk "b" "a"]) :=
  ⟨⟨by decide, c1_edge_dedup.1 envDup 3 [["a"]] initSt (by decide)⟩,
   ⟨by decide, c1_edge_dedup.2.1 [Edge.mk "a" "b"] (Edge.mk "a" "b") (by decide)⟩,
   ⟨by decide, c1_edge_dedup.2.2 "a" "b" (by decide)⟩⟩

/-- Counterexample to C2: on the concrete filesystem `envChildErr` the
child overlay `a/b` is reached during traversal (it appears in the visit
trace) and reading its configuration fails, yet the whole run finishes
without an error, i.e. the process exits zero: the recursion site of
`readDir` discards the recursive call's error. -/
theorem c2_child_error_ignored_cex :
    envChildErr.readKustomization ["a", "b"]
        = .error "cannot read kustomization.yaml"
    ∧ (runRoots envChildErr 3 [["a"]] initSt).map (fun p => p.1.visited)
        = some [["a"], ["a", "b"]]
    ∧ (runRoots envChildErr 3 [["a"]] initSt).map (fun p => p.2) = some none :=
  ⟨by decide, by decide, by decide⟩

/-- C2 (amended): a failure to read or parse the configuration of the
overlay that `readDir` is invoked on directly is propagated to its caller,
and when that overlay is one of the discovered roots, `main` aborts the
run with that error and a non-zero exit; a failure at an overlay reached
recursively as a child is returned by the child call but discarded at the
recursion site, so the run continues (see `c2_child_error_ignored_cex`). -/
theorem c2_direct_error_propagates (env : Env) (fuel : Nat) (dir : GoPath)
    (rest : List GoPath) (st : St) (e : String)
    (hfuel : 0 < fuel) (hk : env.readKustomization dir = .error e) :
    readDir env fuel dir st = some (stTrace dir st, some e)
    ∧ runRoots env fuel (dir :: rest) st = some (stTrace dir st, some e) := by
  obtain ⟨f, rfl⟩ : ∃ f, fuel = f + 1 := ⟨fuel - 1, by omega⟩
  have h1 : readDir env (f + 1) dir st = some (stTrace dir st, some e) := by
    rw [show readDir env (f + 1) = readDirF env (readDir env f) from rfl,
      readDirF_eq]
    simp [readDirShape, hk]
  refine ⟨h1, ?_⟩
  simp [runRoots, h1]

/-- Witness for the amended C2: a root overlay with an unreadable
configuration aborts the run with that error. -/
theorem c2_direct_error_propagates_witness :
    (0 < 1
      ∧ envChildErr.readKustomization ["bad"]
          = .error "cannot read kustomization.yaml")
    ∧ runRoots envChildErr 1 [["bad"]] initSt
        = some (stTrace ["bad"] initSt, some "cannot read kustomization.yaml") :=
  ⟨⟨by decide, by decide⟩,
   (c2_direct_error_propagates envChildErr 1 ["bad"] [] initSt
      "cannot read kustomization.yaml" (by decide) (by decide)).2⟩

theorem mem_dirRefs (env : Env) (dir : GoPath) (vs : List String) (p : GoPath) :
    p ∈ dirRefs env dir vs
      ↔ ∃ v ∈ vs, p = goJoin dir v
          ∧ env.fsExists p = true ∧ env.fsIsDir p = true := by
  simp only [dirRefs, List.mem_filterMap]
  constructor
  · rintro ⟨v, hv, hf⟩
    by_cases hc : (env.fsExists (goJoin dir v) && env.fsIsDir (goJoin dir v)) = true
    · rw [if_pos hc] at hf
      injection hf with hf
      subst hf
      obtain ⟨h1, h2⟩ := Bool.and_eq_true_iff.mp hc
      exact ⟨v, hv, rfl, h1, h2⟩
    · rw [if_neg hc] at hf
      cases hf
  · rintro ⟨v, hv, rfl, h1, h2⟩
    exact ⟨v, hv, by simp [h1, h2]⟩

theorem mem_edgesAfter (env : Env) (rel : GoPath)
    (htot : ∀ d, ∃ q, env.relTop d = Except.ok q) :
    ∀ (nds : List GoPath) (es : List Edge) (e : Edge),
      e ∈ edgesAfter env rel es nds
        ↔ e ∈ es ∨ ∃ nd ∈ nds, ∃ q, env.relTop nd = Except.ok q
            ∧ e = Edge.mk (showP rel) (showP q) := by
  intro nds
  induction nds with
  | nil => intro es e; simp [edgesAfter]
  | cons nd nds ih =>
    intro es e
    obtain ⟨q, hq⟩ := htot nd
    rw [show edgesAfter env rel es (nd :: nds)
        = edgesAfter env rel (addIfAbsent es (Edge.mk (showP rel) (showP q))) nds
      from by simp [edgesAfter, hq]]
    rw [ih, mem_addIfAbsent]
    constructor
    · rintro ((hm | rfl) | ⟨nd', hnd', q', hq', rfl⟩)
      · exact Or.inl hm
      · exact Or.inr ⟨nd, List.mem_cons_self nd nds, q, hq, rfl⟩
      · exact Or.inr ⟨nd', List.mem_cons_of_mem _ hnd', q', hq', rfl⟩
    · rintro (hm | ⟨nd', hnd', q', hq', rfl⟩)
      · exact Or.inl (Or.inl hm)
      · rcases List.mem_cons.mp hnd' with h | h
        · subst h
          rw [hq] at hq'
          injection hq' with h2
          subst h2
          exact Or.inl (Or.inr rfl)
        · exact Or.inr ⟨nd', h, q', hq', rfl⟩

/-- C3: an entry of the resources or components lists yields a traversal
child iff the entry joined to the overlay directory exists and is a
directory (so a non-existent path or a plain file never yields a child);
and, when the relative-path computation is total, the edges present after
the edge-recording loop are exactly the previous ones plus one edge per
traversal-child identifier — so only such entries ever produce edges. -/
theorem c3_child_iff_existing_dir (env : Env) (dir : GoPath)
    (st1 st2 : St) (res comps : List String) (p : GoPath)
    (htot : ∀ d, ∃ q, env.relTop d = Except.ok q) :
    ((p ∈ (scanResources env dir st1 res).2 ++ (scanComponents env dir st2 comps).2)
      ↔ ∃ v, (v ∈ res ∨ v ∈ comps) ∧ p = goJoin dir v
          ∧ env.fsExists p = true ∧ env.fsIsDir p = true)
    ∧ (∀ (rel : GoPath) (st : St) (e : Edge) (nds : List GoPath),
        e ∈ ((addEdges env rel st nds).1).edges
          ↔ e ∈ st.edges
            ∨ ∃ nd ∈ nds, ∃ q, env.relTop nd = Except.ok q
                ∧ e = Edge.mk (showP rel) (showP q)) := by
  constructor
  · rw [scanResources_eq, scanComponents_eq]
    simp only [List.mem_append]
    rw [mem_dirRefs, mem_dirRefs]
    constructor
    · rintro (⟨v, hv, rfl, h1, h2⟩ | ⟨v, hv, rfl, h1, h2⟩)
      · exact ⟨v, Or.inl hv, rfl, h1, h2⟩
      · exact ⟨v, Or.inr hv, rfl, h1, h2⟩
    · rintro ⟨v, hv | hv, rfl, h1, h2⟩
      · exact Or.inl ⟨v, hv, rfl, h1, h2⟩
      · exact Or.inr ⟨v, hv, rfl, h1, h2⟩
  · intro rel st e nds
    rw [addEdges_eq]
    exact mem_edgesAfter env rel htot nds st.edges e

/-- Witness for C3 on a concrete filesystem: the duplicate resource entry
`b` of overlay `a` yields the traversal child `a/b`. -/
theorem c3_child_iff_existing_dir_witness :
    (∀ d, ∃ q, envDup.relTop d = Except.ok q)
    ∧ (((["a", "b"] : GoPath) ∈ (scanResources envDup ["a"] initSt ["b", "b"]).2
          ++ (scanComponents envDup ["a"] initSt []).2)
        ↔ ∃ v, (v ∈ ["b", "b"] ∨ v ∈ ([] : List String))
            ∧ ["a", "b"] = goJoin ["a"] v
            ∧ envDup.fsExists ["a", "b"] = true
            ∧ envDup.fsIsDir ["a", "b"] = true)
    ∧ (∀ (rel : GoPath) (st : St) (e : Edge) (nds : List GoPath),
        e ∈ ((addEdges envDup rel st nds).1).edges
          ↔ e ∈ st.edges
            ∨ ∃ nd ∈ nds, ∃ q, envDup.relTop nd = Except.ok q
                ∧ e = Edge.mk (showP rel) (showP q)) :=
  have htot : ∀ d, ∃ q, envDup.relTop d = Except.ok q := fun d => ⟨d, rfl⟩
  ⟨htot,
   (c3_child_iff_existing_dir envDup ["a"] initSt initSt ["b", "b"] [] ["a", "b"] htot).1,
   (c3_child_iff_existing_dir envDup ["a"] initSt initSt ["b", "b"] [] ["a", "b"] htot).2⟩

theorem mem_diagsRes (env : Env) (dir : GoPath) :
    ∀ (vs : List String) (v : String), v ∈ vs →
      env.fsExists (goJoin dir v) = false →
      Diag.mk .debug ("/* " ++ showP (goJoin dir v) ++ " is not found */")
        ∈ diagsRes env dir vs := by
  intro vs
  induction vs with
  | nil => intro v h; cases h
  | cons u vs ih =>
    intro v hv hne
    rcases List.mem_cons.mp hv with h | h
    · subst h
      simp [diagsRes, hne]
    · simp only [diagsRes, List.mem_cons, List.mem_append]
      exact Or.inr (Or.inr (ih v h hne))

theorem mem_diagsComp (env : Env) (dir : GoPath) :
    ∀ (vs : List String) (v : String), v ∈ vs →
      env.fsExists (goJoin dir v) = false →
      Diag.mk .warn (showP (goJoin dir v) ++ " is not found")
        ∈ diagsComp env dir vs := by
  intro vs
  induction vs with
  | nil => intro v h; cases h
  | cons u vs ih =>
    intro v hv hne
    rcases List.mem_cons.mp hv with h | h
    · subst h
      simp [diagsComp, hne]
    · simp only [diagsComp, List.mem_cons, List.mem_append]
      exact Or.inr (Or.inr (ih v h hne))

theorem errAfter_cause (env : Env) :
    ∀ (nds : List GoPath) (e : String), errAfter env nds = some e →
      ∃ nd ∈ nds, env.relTop nd = Except.error e := by
  intro nds
  induction nds with
  | nil => intro e h; cases h
  | cons nd nds ih =>
    intro e h
    cases hR : env.relTop nd with
    | error e2 =>
      rw [show errAfter env (nd :: nds) = some e2 from by simp [errAfter, hR]] at h
      injection h with h1
      subst h1
      exact ⟨nd, List.mem_cons_self nd nds, hR⟩
    | ok q =>
      rw [show errAfter env (nd :: nds) = errAfter env nds from by simp [errAfter, hR]] at h
      obtain ⟨nd', hm, he⟩ := ih e h
      exact ⟨nd', List.mem_cons_of_mem _ hm, he⟩

/-- Counterexample to C4: on the concrete filesystem `envMissing` the
declared resource `missing` does not exist, yet the run records no
warning-severity diagnostic at all — the resource-missing line is logged
at debug severity (suppressed at default verbosity), contradicting the
claimed warning severity for missing resources. -/
theorem c4_missing_resource_debug_cex :
    envMissing.fsExists (goJoin ["a"] "missing") = false
    ∧ (readDir envMissing 1 ["a"] initSt).map
        (fun p => p.1.diags.filter (fun dg => dg.level == LogLevel.warn)) = some []
    ∧ (readDir envMissing 1 ["a"] initSt).map
        (fun p => p.1.diags.contains
          ⟨.debug, "/* a/missing is not found */"⟩) = some true
    ∧ (readDir envMissing 1 ["a"] initSt).map (fun p => p.2) = some none :=
  ⟨by decide, by decide, by decide, by decide⟩

/-- C4 (amended): a missing component path is recorded as a
warning-severity diagnostic (surfaced at default verbosity), while a
missing resource path is recorded only at debug severity (suppressed at
default verbosity); in either case traversal continues — an error
returned by `readDir` never stems from a missing reference, only from
configuration reading or relative-path computation. -/
theorem c4_missing_reference_severity (env : Env) (dir : GoPath)
    (st1 st2 : St) (vs ws : List String) (v w : String)
    (hv : v ∈ vs) (hw : w ∈ ws)
    (hnv : env.fsExists (goJoin dir v) = false)
    (hnw : env.fsExists (goJoin dir w) = false) :
    (Diag.mk .debug ("/* " ++ showP (goJoin dir v) ++ " is not found */")
        ∈ ((scanResources env dir st1 vs).1).diags)
    ∧ (Diag.mk .warn (showP (goJoin dir w) ++ " is not found")
        ∈ ((scanComponents env dir st2 ws).1).diags)
    ∧ (∀ (fuel : Nat) (d : GoPath) (st : St) (p : St × Option String),
        readDir env fuel d st = some p → ∀ e, p.2 = some e →
          (∃ d2, env.readKustomization d2 = Except.error e)
          ∨ (∃ d2, env.relTop d2 = Except.error e)) := by
  refine ⟨?_, ?_, ?_⟩
  · rw [scanResources_eq]
    simp only [List.mem_append]
    exact Or.inr (mem_diagsRes env dir vs v hv hnv)
  · rw [scanComponents_eq]
    simp only [List.mem_append]
    exact Or.inr (mem_diagsComp env dir ws w hw hnw)
  · intro fuel d st p h e hpe
    cases fuel with
    | zero => simp [readDir] at h
    | succ fuel =>
      rw [show readDir env (fuel + 1) = readDirF env (readDir env fuel) from rfl,
        readDirF_eq] at h
      unfold readDirShape at h
      split at h
      · next e2 heq =>
        injection h with h1
        subst h1
        injection hpe with h2
        subst h2
        exact Or.inl ⟨d, heq⟩
      · split at h
        · next e2 heq =>
          injection h with h1
          subst h1
          injection hpe with h2
          subst h2
          exact Or.inr ⟨d, heq⟩
        · split at h
          · next e2 heq =>
            injection h with h1
            subst h1
            injection hpe with h2
            subst h2
            obtain ⟨nd, _, hrel⟩ := errAfter_cause env _ e2 heq
            exact Or.inr ⟨nd, hrel⟩
          · split at h
            · cases h
            · injection h with h1
              subst h1
              cases hpe

/-- Witness for the amended C4 on `envMissing`: resource `missing` and
component `x`, both absent. -/
theorem c4_missing_reference_severity_witness :
    (("missing" : String) ∈ ["missing"] ∧ ("x" : String) ∈ ["x"]
      ∧ envMissing.fsExists (goJoin ["a"] "missing") = false
      ∧ envMissing.fsExists (goJoin ["a"] "x") = false)
    ∧ (Diag.mk .debug ("/* " ++ showP (goJoin ["a"] "missing") ++ " is not found */")
        ∈ ((scanResources envMissing ["a"] initSt ["missing"]).1).diags)
    ∧ (Diag.mk .warn (showP (goJoin ["a"] "x") ++ " is not found")
        ∈ ((scanComponents envMissing ["a"] initSt ["x"]).1).diags)
    ∧ (∀ (fuel : Nat) (d : GoPath) (st : St) (p : St × Option String),
        readDir envMissing fuel d st = some p → ∀ e, p.2 = some e →
          (∃ d2, envMissing.readKustomization d2 = Except.error e)
          ∨ (∃ d2, envMissing.relTop d2 = Except.error e)) :=
  have h := c4_missing_reference_severity envMissing ["a"] initSt initSt
    ["missing"] ["x"] "missing" "x" (by decide) (by decide) (by decide) (by decide)
  ⟨⟨by decide, by decide, by decide, by decide⟩, h.1, h.2.1, h.2.2⟩

theorem dirRefs_strip (env : Env) (dir : GoPath) (vs : List String) :
    dirRefs (stripEnv env) dir vs = dirRefs env dir vs := rfl

theorem nextDirsOf_strip (env : Env) (d : GoPath) (k : Kustomization) :
    nextDirsOf (stripEnv env) d (stripK k) = nextDirsOf env d k := rfl

theorem edgesAfter_strip (env : Env) (rel : GoPath) :
    ∀ (nds : List GoPath) (es : List Edge),
      edgesAfter (stripEnv env) rel es nds = edgesAfter env rel es nds := by
  intro nds
  induction nds with
  | nil => intro es; rfl
  | cons nd nds ih =>
    intro es
    simp only [edgesAfter]
    rw [show (stripEnv env).relTop nd = env.relTop nd from rfl]
    cases hR : env.relTop nd with
    | error e => rfl
    | ok q => exact ih _

theorem errAfter_strip (env : Env) :
    ∀ (nds : List GoPath), errAfter (stripEnv env) nds = errAfter env nds := by
  intro nds
  induction nds with
  | nil => rfl
  | cons nd nds ih =>
    simp only [errAfter]
    rw [show (stripEnv env).relTop nd = env.relTop nd from rfl]
    cases hR : env.relTop nd with
    | error e => rfl
    | ok q => exact ih

theorem stTrace_sim {s t : St} (h : stSim s t) (d : GoPath) :
    stSim (stTrace d s) (stTrace d t) := by
  obtain ⟨h1, h2, h3⟩ := h
  exact ⟨by simp [stTrace, h1], by simp [stTrace, h2], by simp [stTrace, h3]⟩

theorem stProcessed_strip_sim (env : Env) (d rel : GoPath) (k : Kustomization)
    {s t : St} (h : stSim s t) :
    stSim (stProcessed env d rel k s) (stProcessed (stripEnv env) d rel (stripK k) t) := by
  obtain ⟨h1, h2, h3⟩ := h
  refine ⟨?_, ?_, ?_⟩
  · simp [stProcessed, h1]
  · simp [stProcessed, h2, nextDirsOf_strip, edgesAfter_strip]
  · simp [stProcessed, h3]

theorem recurseList_sim (next nextS : GoPath → St → Option (St × Option String))
    (hnext : ∀ (d : GoPath) (s t : St), stSim s t → relO (next d s) (nextS d t)) :
    ∀ (nds : List GoPath) (s t : St), stSim s t →
      relSt (recurseList next nds s) (recurseList nextS nds t) := by
  intro nds
  induction nds with
  | nil => intro s t h; exact h
  | cons nd nds ih =>
    intro s t h
    have h0 := hnext nd s t h
    cases hx : next nd s with
    | none =>
      cases hy : nextS nd t with
      | none => simp only [recurseList, hx, hy]; exact trivial
      | some p =>
        obtain ⟨t1, r1⟩ := p
        rw [hx, hy] at h0
        exact h0.elim
    | some p =>
      obtain ⟨s1, r1⟩ := p
      cases hy : nextS nd t with
      | none =>
        rw [hx, hy] at h0
        exact h0.elim
      | some p' =>
        obtain ⟨t1, r2⟩ := p'
        rw [hx, hy] at h0
        obtain ⟨hsim1, rfl⟩ := h0
        simp only [recurseList, hx, hy]
        exact ih _ _ hsim1

theorem readDir_strip_sim (env : Env) :
    ∀ (fuel : Nat) (d : GoPath) (s t : St), stSim s t →
      relO (readDir env fuel d s) (readDir (stripEnv env) fuel d t) := by
  intro fuel
  induction fuel with
  | zero => intro d s t h; exact trivial
  | succ fuel ih =>
    intro d s t h
    rw [show readDir env (fuel + 1) = readDirF env (readDir env fuel) from rfl,
      show readDir (stripEnv env) (fuel + 1)
          = readDirF (stripEnv env) (readDir (stripEnv env) fuel) from rfl,
      readDirF_eq, readDirF_eq]
    unfold readDirShape
    cases hK : env.readKustomization d with
    | error e =>
      have hK2 : (stripEnv env).readKustomization d = .error e := by
        simp [stripEnv, hK, Except.map]
      rw [hK2]
      exact ⟨stTrace_sim h d, rfl⟩
    | ok k =>
      have hK2 : (stripEnv env).readKustomization d = .ok (stripK k) := by
        simp [stripEnv, hK, Except.map]
      rw [hK2]
      dsimp only
      rw [show (stripEnv env).relTop d = env.relTop d from rfl]
      cases hR : env.relTop d with
      | error e => exact ⟨stTrace_sim h d, rfl⟩
      | ok rel =>
        dsimp only
        rw [nextDirsOf_strip, errAfter_strip]
        cases hE : errAfter env (nextDirsOf env d k) with
        | some e => exact ⟨stProcessed_strip_sim env d rel k h, rfl⟩
        | none =>
          dsimp only
          have hrec := recurseList_sim (readDir env fuel) (readDir (stripEnv env) fuel)
            (fun d2 s2 t2 hst => ih d2 s2 t2 hst)
            (nextDirsOf env d k) (stProcessed env d rel k s)
            (stProcessed (stripEnv env) d rel (stripK k) t)
            (stProcessed_strip_sim env d rel k h)
          cases hx : recurseList (readDir env fuel) (nextDirsOf env d k)
              (stProcessed env d rel k s) with
          | none =>
            cases hy : recurseList (readDir (stripEnv env) fuel) (nextDirsOf env d k)
                (stProcessed (stripEnv env) d rel (stripK k) t) with
            | none => exact trivial
            | some t2 =>
              rw [hx, hy] at hrec
              exact hrec.elim
          | some s2 =>
            cases hy : recurseList (readDir (stripEnv env) fuel) (nextDirsOf env d k)
                (stProcessed (stripEnv env) d rel (stripK k) t) with
            | none =>
              rw [hx, hy] at hrec
              exact hrec.elim
            | some t2 =>
              rw [hx, hy] at hrec
              exact ⟨hrec, rfl⟩

theorem relO_obsO : ∀ {o o2 : Option (St × Option String)},
    relO o o2 → obsO o = obsO o2 := by
  intro o o2 h
  match o, o2 with
  | none, none => rfl
  | some (t, r), some (t', r') =>
    obtain ⟨⟨h1, h2, h3⟩, rfl⟩ := h
    simp [obsO, h1, h2, h3]
  | none, some (t', r') => exact h.elim
  | some (t, r), none => exact h.elim

/-- C5: processing the patches, replacements, transformers and
configurations lists contributes no edge, no tree node, no traversal
child and no error: a traversal in which every overlay's four check-only
lists are emptied produces the same directory tree, the same edge
collection, the same visit trace (the directories recursed into) and the
same outcome — only the log output differs. -/
theorem c5_check_only_frame (env : Env) (fuel : Nat) (d : GoPath) (st : St) :
    obsO (readDir env fuel d st) = obsO (readDir (stripEnv env) fuel d st) :=
  relO_obsO (readDir_strip_sim env fuel d st st ⟨rfl, rfl, rfl⟩)

theorem containsStr_iff (l : List String) (a : String) :
    l.contains a = true ↔ a ∈ l := by
  simp [List.contains]

theorem lookupChild_setChild (cs : ChildMap) (s : String) (v : DirNode) :
    lookupChild (setChild cs s v) s = some v := by
  match cs with
  | .nil => simp [setChild, lookupChild]
  | .cons k c rest =>
    by_cases h : k = s
    · simp [setChild, lookupChild, h]
    · simp [setChild, lookupChild, h, lookupChild_setChild rest s v]

theorem setChild_self (cs : ChildMap) (s : String) (c : DirNode)
    (h : lookupChild cs s = some c) : setChild cs s c = cs := by
  match cs with
  | .nil => simp [lookupChild] at h
  | .cons k c0 rest =>
    by_cases hk : k = s
    · simp only [lookupChild, hk, if_pos rfl] at h
      injection h with h1
      subst h1
      simp [setChild, hk]
    · simp only [lookupChild, hk, if_neg hk] at h
      simp [setChild, hk, setChild_self rest s c h]

theorem descendPath_descend_mem (b : String) :
    ∀ (segs : List String) (t : DirNode),
      ∃ n, descendPath (descend t segs b) segs = some n ∧ b ∈ n.Kustomizations := by
  intro segs
  induction segs with
  | nil =>
    intro t
    cases t with
    | node ks cs =>
      refine ⟨.node (if ks.contains b then ks else ks ++ [b]) cs, rfl, ?_⟩
      dsimp only [DirNode.Kustomizations]
      by_cases hc : ks.contains b = true
      · rw [if_pos hc]
        exact (containsStr_iff ks b).mp hc
      · rw [if_neg hc]
        exact List.mem_append_right _ (List.mem_singleton_self b)
  | cons s rest ih =>
    intro t
    obtain ⟨n, h1, h2⟩ := ih ((lookupChild t.Children s).getD emptyNode)
    refine ⟨n, ?_, h2⟩
    cases t with
    | node ks cs =>
      simp only [descend, descendPath, DirNode.Children]
      rw [lookupChild_setChild]
      exact h1

theorem descendPath_descend_of_some (b : String) :
    ∀ (segs : List String) (t n : DirNode),
      descendPath t segs = some n →
      descendPath (descend t segs b) segs
        = some (.node (if n.Kustomizations.contains b then n.Kustomizations
            else n.Kustomizations ++ [b]) n.Children) := by
  intro segs
  induction segs with
  | nil =>
    intro t n h
    injection h with h1
    subst h1
    rfl
  | cons s rest ih =>
    intro t n h
    simp only [descendPath] at h
    cases hlu : lookupChild t.Children s with
    | none => rw [hlu] at h; cases h
    | some c =>
      rw [hlu] at h
      cases t with
      | node ks cs =>
        have hlu2 : lookupChild cs s = some c := hlu
        simp only [descend, descendPath, DirNode.Children]
        rw [hlu2]
        simp only [Option.getD]
        rw [lookupChild_setChild]
        exact ih c n h

theorem descend_of_mem (b : String) :
    ∀ (segs : List String) (t n : DirNode),
      descendPath t segs = some n → b ∈ n.Kustomizations →
      descend t segs b = t := by
  intro segs
  induction segs with
  | nil =>
    intro t n h hb
    injection h with h1
    subst h1
    cases t with
    | node ks cs =>
      have hb2 : b ∈ ks := hb
      have hc : ks.contains b = true := (containsStr_iff ks b).mpr hb2
      simp only [descend, DirNode.Kustomizations, DirNode.Children]
      rw [if_pos hc]
  | cons s rest ih =>
    intro t n h hb
    simp only [descendPath] at h
    cases hlu : lookupChild t.Children s with
    | none => rw [hlu] at h; cases h
    | some c =>
      rw [hlu] at h
      cases t with
      | node ks cs =>
        have hlu2 : lookupChild cs s = some c := hlu
        simp only [descend, DirNode.Children, DirNode.Kustomizations]
        rw [hlu2]
        simp only [Option.getD]
        rw [ih c n h hb, setChild_self cs s c hlu2]

theorem listNodupStr_concat (b : String) :
    ∀ (ks : List String), listNodupStr ks = true → ks.contains b = false →
      listNodupStr (ks ++ [b]) = true := by
  intro ks
  induction ks with
  | nil => intro _ _; simp [listNodupStr]
  | cons x xs ih =>
    intro h hb
    simp only [listNodupStr, Bool.and_eq_true, Bool.not_eq_true'] at h
    simp only [List.contains_cons, Bool.or_eq_false_iff] at hb
    obtain ⟨h1, h2⟩ := h
    obtain ⟨hb1, hb2⟩ := hb
    simp only [List.cons_append, listNodupStr, Bool.and_eq_true, Bool.not_eq_true']
    constructor
    · cases hxc : (xs ++ [b]).contains x
      · rfl
      · exfalso
        rcases List.mem_append.mp ((containsStr_iff _ _).mp hxc) with hm | hm
        · rw [(containsStr_iff _ _).mpr hm] at h1
          cases h1
        · rw [List.mem_singleton.mp hm] at hb1
          simp at hb1
    · exact ih h2 hb2

theorem lookupChild_nodup :
    ∀ (cs : ChildMap) (s : String) (c : DirNode),
      nodupBChildren cs = true → lookupChild cs s = some c → nodupB c = true := by
  intro cs
  match cs with
  | .nil => intro s c _ h; simp [lookupChild] at h
  | .cons k c0 rest =>
    intro s c hn h
    simp only [nodupBChildren, Bool.and_eq_true] at hn
    by_cases hk : k = s
    · simp only [lookupChild, if_pos hk] at h
      injection h with h1
      subst h1
      exact hn.1
    · simp only [lookupChild, if_neg hk] at h
      exact lookupChild_nodup rest s c hn.2 h

theorem setChild_nodup :
    ∀ (cs : ChildMap) (s : String) (v : DirNode),
      nodupBChildren cs = true → nodupB v = true →
      nodupBChildren (setChild cs s v) = true := by
  intro cs
  match cs with
  | .nil => intro s v _ hv; simp [setChild, nodupBChildren, hv]
  | .cons k c0 rest =>
    intro s v hn hv
    simp only [nodupBChildren, Bool.and_eq_true] at hn
    by_cases hk : k = s
    · simp only [setChild, if_pos hk]
      simp [nodupBChildren, hv, hn.2]
    · simp only [setChild, if_neg hk]
      simp [nodupBChildren, hn.1, setChild_nodup rest s v hn.2 hv]

theorem descend_nodup (b : String) :
    ∀ (segs : List String) (t : DirNode),
      nodupB t = true → nodupB (descend t segs b) = true := by
  intro segs
  induction segs with
  | nil =>
    intro t hn
    cases t with
    | node ks cs =>
      simp only [nodupB, Bool.and_eq_true] at hn
      simp only [descend, DirNode.Kustomizations, DirNode.Children, nodupB,
        Bool.and_eq_true]
      refine ⟨?_, hn.2⟩
      by_cases hc : ks.contains b = true
      · rw [if_pos hc]
        exact hn.1
      · rw [if_neg hc]
        refine listNodupStr_concat b ks hn.1 ?_
        cases h2 : ks.contains b
        · rfl
        · exact absurd h2 hc
  | cons s rest ih =>
    intro t hn
    cases t with
    | node ks cs =>
      simp only [nodupB, Bool.and_eq_true] at hn
      simp only [descend, DirNode.Kustomizations, DirNode.Children, nodupB,
        Bool.and_eq_true]
      refine ⟨hn.1, ?_⟩
      have hc : nodupB ((lookupChild cs s).getD emptyNode) = true := by
        cases hlu : lookupChild cs s with
        | none => rfl
        | some c => exact lookupChild_nodup cs s c hn.2 hlu
      exact setChild_nodup cs s _ hn.2 (ih _ hc)

theorem parentSegs_concat (segs : List String) (b : String) :
    parentSegs (segs ++ [b]) = if segs = [] then ["."] else segs := by
  cases hs : segs with
  | nil => simp [parentSegs]
  | cons x xs =>
    simp only [parentSegs, List.length_append]
    rw [if_neg (by simp), if_neg (by simp)]
    exact List.dropLast_concat

theorem baseSeg_concat (segs : List String) (b : String) :
    baseSeg (segs ++ [b]) = b := by
  simp [baseSeg, List.getLast?_concat]

/-- C6: registering an overlay identifier with parent segments
`s1 … sk` and basename `b` in the directory tree and then descending the
tree by exactly those parent segments reaches a node whose overlays list
contains `b`; when there are no parent segments the single reserved
sentinel segment `.` is the one descent step. -/
theorem c6_dirtree_roundtrip (t : DirNode) (segs : List String) (b : String) :
    ∃ n, descendPath (appendToDirTree t (segs ++ [b]))
          (if segs = [] then ["."] else segs) = some n
      ∧ b ∈ n.Kustomizations := by
  rw [appendToDirTree, parentSegs_concat, baseSeg_concat]
  exact descendPath_descend_mem b _ t

/-- C7: every overlays list in the directory tree stays duplicate-free
under registration; at the terminal node the list is unchanged when the
basename is already present (structural string equality) and otherwise
the basename is appended at the end, so insertion order is discovery
order; moreover re-registering a present basename leaves the whole tree
unchanged. -/
theorem c7_overlays_nodup (t : DirNode) (p : GoPath) :
    (nodupB t = true → nodupB (appendToDirTree t p) = true)
    ∧ (∀ n, descendPath t (parentSegs p) = some n →
        descendPath (appendToDirTree t p) (parentSegs p)
          = some (.node (if n.Kustomizations.contains (baseSeg p)
              then n.Kustomizations
              else n.Kustomizations ++ [baseSeg p]) n.Children)
        ∧ (baseSeg p ∈ n.Kustomizations → appendToDirTree t p = t)) := by
  constructor
  · intro hn
    exact descend_nodup (baseSeg p) (parentSegs p) t hn
  · intro n h
    exact ⟨descendPath_descend_of_some (baseSeg p) (parentSegs p) t n h,
      fun hb => descend_of_mem (baseSeg p) (parentSegs p) t n h hb⟩

/-- Witness for C7 on a concrete tree holding overlay `x` under the
sentinel segment. -/
theorem c7_overlays_nodup_witness :
    (nodupB (DirNode.node [] (.cons "." (.node ["x"] .nil) .nil)) = true
      ∧ nodupB (appendToDirTree
          (DirNode.node [] (.cons "." (.node ["x"] .nil) .nil)) ["x"]) = true)
    ∧ (descendPath (DirNode.node [] (.cons "." (.node ["x"] .nil) .nil))
          (parentSegs ["x"]) = some (.node ["x"] .nil)
      ∧ baseSeg ["x"] ∈ (DirNode.node ["x"] ChildMap.nil).Kustomizations
      ∧ appendToDirTree (DirNode.node [] (.cons "." (.node ["x"] .nil) .nil)) ["x"]
          = DirNode.node [] (.cons "." (.node ["x"] .nil) .nil)) :=
  have h := c7_overlays_nodup (DirNode.node [] (.cons "." (.node ["x"] .nil) .nil)) ["x"]
  have h2 := h.2 (.node ["x"] .nil) rfl
  ⟨⟨by decide, h.1 (by decide)⟩,
   ⟨rfl, by decide, h2.2 (by decide)⟩⟩

theorem recurseList_isSome (next : GoPath → St → Option (St × Option String)) :
    ∀ (nds : List GoPath) (st : St),
      (∀ nd ∈ nds, ∀ s, (next nd s).isSome = true) →
      (recurseList next nds st).isSome = true := by
  intro nds
  induction nds with
  | nil => intro st _; rfl
  | cons nd nds ih =>
    intro st h
    have h0 := h nd (List.mem_cons_self nd nds) st
    cases hx : next nd st with
    | none => rw [hx] at h0; cases h0
    | some p =>
      obtain ⟨s1, r1⟩ := p
      simp only [recurseList, hx]
      exact ih s1 (fun nd2 hm s => h nd2 (List.mem_cons_of_mem _ hm) s)

/-- C8: the traversal terminates on every input whose resource/component
reference relation is acyclic: given a rank function that decreases from
each overlay to each of its traversal children (such a function exists
exactly for acyclic finite reference relations), `readDir` completes
within any recursion budget exceeding the starting overlay's rank, even
when overlays are reachable from multiple parents and re-processed once
per reaching edge. -/
theorem c8_termination_acyclic (env : Env) (rank : GoPath → Nat)
    (hacy : ∀ d k, env.readKustomization d = Except.ok k →
        ∀ c ∈ nextDirsOf env d k, rank c < rank d) :
    ∀ (fuel : Nat) (d : GoPath) (st : St), rank d < fuel →
      (readDir env fuel d st).isSome = true := by
  intro fuel
  induction fuel with
  | zero => intro d st h; exact absurd h (Nat.not_lt_zero _)
  | succ fuel ih =>
    intro d st hlt
    rw [show readDir env (fuel + 1) = readDirF env (readDir env fuel) from rfl,
      readDirF_eq]
    unfold readDirShape
    cases hK : env.readKustomization d with
    | error e => rfl
    | ok k =>
      dsimp only
      cases hR : env.relTop d with
      | error e => rfl
      | ok rel =>
        dsimp only
        cases hE : errAfter env (nextDirsOf env d k) with
        | some e => rfl
        | none =>
          dsimp only
          have hrec := recurseList_isSome (readDir env fuel) (nextDirsOf env d k)
            (stProcessed env d rel k st)
            (fun nd hm s => ih nd s (by
              have := hacy d k hK nd hm
              omega))
          cases hx : recurseList (readDir env fuel) (nextDirsOf env d k)
              (stProcessed env d rel k st) with
          | none => rw [hx] at hrec; cases hrec
          | some st2 => rfl

/-- Witness for C8: the two-overlay filesystem `envChildErr` is acyclic
under `rankChild`, and recursion budget 2 completes from the root. -/
theorem c8_termination_acyclic_witness :
    (∀ d k, envChildErr.readKustomization d = Except.ok k →
        ∀ c ∈ nextDirsOf envChildErr d k, rankChild c < rankChild d)
    ∧ (rankChild ["a"] < 2
      ∧ (readDir envChildErr 2 ["a"] initSt).isSome = true) := by
  have hacy : ∀ d k, envChildErr.readKustomization d = Except.ok k →
      ∀ c ∈ nextDirsOf envChildErr d k, rankChild c < rankChild d := by
    intro d k hk c hc
    by_cases hd : d = ["a"]
    · subst hd
      have hk2 : k = { Resources := ["b"] } := by
        have : envChildErr.readKustomization ["a"]
            = Except.ok { Resources := ["b"] } := by decide
        rw [this] at hk
        injection hk with h3
        exact h3.symm
      subst hk2
      have hv : nextDirsOf envChildErr ["a"] { Resources := ["b"] }
          = [["a", "b"]] := by decide
      rw [hv] at hc
      rw [List.mem_singleton.mp hc]
      decide
    · have hbeq : (d == ["a"]) = false := beq_eq_false_iff_ne.mpr hd
      rw [show envChildErr.readKustomization d
          = Except.error "cannot read kustomization.yaml"
        from by simp [envChildErr, hd]] at hk
      cases hk
  exact ⟨hacy, by decide,
    c8_termination_acyclic envChildErr rankChild hacy 2 ["a"] initSt (by decide)⟩

/-- C9: rendering is total — for every traversal state the output is the
opening marker line, a body, and the closing marker line — and on the
empty initial state the body is empty: exactly the two marker lines are
produced, with no node or edge line between them. -/
theorem c9_render_total_empty :
    (∀ st : St, ∃ body, mainLines st = "digraph G \x7b" :: (body ++ ["\x7d"]))
    ∧ mainLines initSt = ["digraph G \x7b", "\x7d"] := by
  constructor
  · intro st
    refine ⟨printGraphNodes st.rootDir "" 1 ++ printGraphEdges st.edges 1, ?_⟩
    simp [mainLines]
  · rfl

theorem printGraphNodes_kust_mem (ks : List String) (cs : ChildMap)
    (dirName : String) (lvl : Nat) (k : String) (hk : k ∈ ks) :
    (repeatStr " " (2 * lvl) ++ "\"" ++ goJoinStr dirName k
      ++ "\"  [label=\"" ++ k ++ "\"]")
      ∈ printGraphNodes (.node ks cs) dirName lvl := by
  simp only [printGraphNodes]
  exact List.mem_append_left _ (List.mem_map.mpr ⟨k, hk, rfl⟩)

theorem printChildren_mem (x : String) :
    ∀ (cs : ChildMap) (dirName : String) (lvl : Nat) (cn : String) (c : DirNode),
      lookupChild cs cn = some c →
      x ∈ printGraphNodes c
          (goJoinStr dirName (if cn = "." then "(root)" else cn)) (lvl + 1) →
      x ∈ printChildren cs dirName lvl := by
  intro cs
  match cs with
  | .nil => intro dirName lvl cn c h; simp [lookupChild] at h
  | .cons k0 c0 rest =>
    intro dirName lvl cn c h hx
    by_cases hk : k0 = cn
    · subst hk
      simp only [lookupChild, if_pos rfl] at h
      injection h with h1
      subst h1
      simp only [printChildren]
      simp [List.mem_append, hx]
    · simp only [lookupChild, if_neg hk] at h
      simp only [printChildren]
      exact List.mem_append_right _ (printChildren_mem x rest dirName lvl cn c h hx)

/-- C10: an overlay sitting directly under the top directory (its
identifier has no parent segments, so it is grouped under the sentinel
segment `.`) is rendered in the node section addressed by the path
`(root)/<basename>` — the sentinel replaced by the reserved display name —
while edge lines print the bare relative-path identifiers; the two forms
always differ, so node-section identifiers and edge endpoints disagree
for such overlays. -/
theorem c10_root_sentinel_render (root : DirNode) (c : DirNode)
    (b src dst : String) (es : List Edge)
    (hc : lookupChild root.Children "." = some c)
    (hb : b ∈ c.Kustomizations)
    (hsplit : splitSlash b = [b]) (hb1 : b ≠ "") (hb2 : b ≠ ".") (hb3 : b ≠ "..")
    (he : Edge.mk src dst ∈ es) :
    (repeatStr " " (2 * 2) ++ "\"" ++ ("(root)/" ++ b) ++ "\"  [label=\"" ++ b ++ "\"]")
        ∈ printGraphNodes root "" 1
    ∧ (repeatStr " " (2 * 1) ++ "\"" ++ src ++ "\" -> \"" ++ dst ++ "\"")
        ∈ printGraphEdges es 1
    ∧ "(root)/" ++ b ≠ b := by
  have hjoin : goJoinStr "(root)" b = "(root)/" ++ b := by
    unfold goJoinStr cleanSegs
    rw [show splitSlash "(root)" = ["(root)"] from by decide, hsplit]
    rw [show List.foldl cleanStep [] (["(root)"] ++ [b])
        = cleanStep (cleanStep [] "(root)") b from rfl]
    rw [show cleanStep [] "(root)" = ["(root)"] from by decide]
    rw [show cleanStep ["(root)"] b = ["(root)", b] from by
      simp [cleanStep, hb1, hb2, hb3]]
    rw [if_neg (by simp)]
    show ("(root)" ++ "/") ++ b = "(root)/" ++ b
    rw [show ("(root)" ++ "/") = "(root)/" from by decide]
  refine ⟨?_, ?_, ?_⟩
  · cases root with
    | node ks cs =>
      have hc2 : lookupChild cs "." = some c := hc
      have hmem : (repeatStr " " (2 * 2) ++ "\"" ++ ("(root)/" ++ b)
            ++ "\"  [label=\"" ++ b ++ "\"]") ∈ printChildren cs "" 1 := by
        apply printChildren_mem _ cs "" 1 "." c hc2
        rw [if_pos rfl, show goJoinStr "" "(root)" = "(root)" from by decide]
        cases c with
        | node cks ccs =>
          have hbk : b ∈ cks := hb
          have h5 := printGraphNodes_kust_mem cks ccs "(root)" 2 b hbk
          rw [hjoin] at h5
          exact h5
      simp only [printGraphNodes]
      exact List.mem_append_right _ hmem
  · simp only [printGraphEdges]
    exact List.mem_map.mpr ⟨Edge.mk src dst, he, rfl⟩
  · intro heq
    have hlen := congrArg String.length heq
    rw [String.length_append] at hlen
    have h7 : ("(root)/").length = 7 := by decide
    omega

/-- Witness for C10 on a concrete tree holding overlay `ov` under the
sentinel segment, with one concrete edge. -/
theorem c10_root_sentinel_render_witness :
    (lookupChild (DirNode.node [] (.cons "." (.node ["ov"] .nil) .nil)).Children "."
        = some (.node ["ov"] .nil)
      ∧ ("ov" : String) ∈ (DirNode.node ["ov"] ChildMap.nil).Kustomizations
      ∧ splitSlash "ov" = ["ov"]
      ∧ ("ov" : String) ≠ "" ∧ ("ov" : String) ≠ "." ∧ ("ov" : String) ≠ ".."
      ∧ Edge.mk "ov" "base" ∈ [Edge.mk "ov" "base"])
    ∧ (repeatStr " " (2 * 2) ++ "\"" ++ ("(root)/" ++ "ov")
        ++ "\"  [label=\"" ++ "ov" ++ "\"]")
        ∈ printGraphNodes (DirNode.node [] (.cons "." (.node ["ov"] .nil) .nil)) "" 1
    ∧ (repeatStr " " (2 * 1) ++ "\"" ++ "ov" ++ "\" -> \"" ++ "base" ++ "\"")
        ∈ printGraphEdges [Edge.mk "ov" "base"] 1
    ∧ "(root)/" ++ "ov" ≠ "ov" :=
  have h := c10_root_sentinel_render
    (DirNode.node [] (.cons "." (.node ["ov"] .nil) .nil)) (.node ["ov"] .nil)
    "ov" "ov" "base" [Edge.mk "ov" "base"]
    rfl (by decide) (by decide) (by decide) (by decide) (by decide) (by decide)
  ⟨⟨rfl, by decide, by decide, by decide, by decide, by decide, by decide⟩,
   h.1, h.2.1, h.2.2⟩

end KG
